import Mathlib

/-!
# Verification of the KnowledgeScout retrieval pipeline

Shallow embedding of the question-answering core of `src/app.py`
(the `ask_question` handler, lines 184-248).  Python strings are
modelled as `List Char` (the inputs relevant to the claims are ASCII;
`isPySpace` covers the ASCII part of Python's `\s` / `str.strip`).
Floating point similarity scores are modelled as rationals; the
external `sklearn` vectorization-and-scoring call is modelled as an
`Except`-valued collaborator (an exception raised inside the `try`
block of lines 202-246 becomes an `Except.error` carrying `str(e)`).
-/

/-- ASCII fragment of Python's whitespace class `\s` (and of
`str.strip`): space, tab, newline, carriage return, vertical tab,
form feed. -/
def isPySpace (c : Char) : Bool :=
  c = ' ' || c = '\t' || c = '\n' || c = '\r' || c = '\x0b' || c = '\x0c'

/-- The sentence-terminal punctuation of the lookbehind
`(?<=[\.!?])` in `app.py` line 196. -/
def isTermPunct (c : Char) : Bool :=
  c = '.' || c = '!' || c = '?'

/-- One pass implementing `doc_text.replace("\r\n", "\n").replace("\r", "\n")`
(line 194): every `'\r'` becomes `'\n'`, and a `'\n'` that immediately
follows a `'\r'` in the original text is absorbed.  The boolean flag
records whether the previous original character was `'\r'`. -/
def normNlAux : Bool → List Char → List Char
  | _, [] => []
  | afterCr, c :: rest =>
    if c = '\r' then '\n' :: normNlAux true rest
    else if afterCr ∧ c = '\n' then normNlAux false rest
    else c :: normNlAux false rest

/-- Newline normalization of `app.py` line 194. -/
def normNl (l : List Char) : List Char := normNlAux false l

/-- Scanner state for the regex split of line 196,
`re.split(r'(?<=[\.!?])\s+|\n+', raw)`: either building a part, or
consuming a (greedy) `\s+` separator that followed sentence-terminal
punctuation, or consuming a (greedy) `\n+` separator. -/
inductive SMode
  | text
  | wsSep
  | nlSep
deriving DecidableEq

/-- Whether the character before the scan position satisfies the
lookbehind `(?<=[\.!?])`. -/
def prevPunct : Option Char → Bool
  | some p => isTermPunct p
  | none => false

/-- The regex split of line 196 as a left-to-right scan.  `prev` is the
character just before the scan position (for the lookbehind), `cur` the
current part accumulated in reverse.  At each position the first
alternative `(?<=[\.!?])\s+` is tried before `\n+`, matching the regex
engine's alternation order; each separator run is maximal (greedy). -/
def splitAux : Option Char → SMode → List Char → List Char → List (List Char)
  | _, .text, cur, [] => [cur.reverse]
  | _, .wsSep, cur, [] => [cur.reverse]
  | _, .nlSep, cur, [] => [cur.reverse]
  | prev, .text, cur, c :: rest =>
    if prevPunct prev && isPySpace c then
      cur.reverse :: splitAux (some c) .wsSep [] rest
    else if c = '\n' then
      cur.reverse :: splitAux (some c) .nlSep [] rest
    else
      splitAux (some c) .text (c :: cur) rest
  | _, .wsSep, cur, c :: rest =>
    if isPySpace c then splitAux (some c) .wsSep cur rest
    else splitAux (some c) .text [c] rest
  | _, .nlSep, cur, c :: rest =>
    if c = '\n' then splitAux (some c) .nlSep cur rest
    else splitAux (some c) .text [c] rest

/-- `parts = re.split(r'(?<=[\.!?])\s+|\n+', raw)` (line 196). -/
def splitParts (l : List Char) : List (List Char) :=
  splitAux none .text [] l

/-- One pass implementing `re.sub('\s+', ' ', p)` (line 197): each
maximal whitespace run is replaced by a single space.  The flag records
whether the previous character was whitespace. -/
def collapseAux : Bool → List Char → List Char
  | _, [] => []
  | inWs, c :: rest =>
    if isPySpace c then
      if inWs then collapseAux true rest else ' ' :: collapseAux true rest
    else c :: collapseAux false rest

/-- `re.sub('\s+', ' ', p)` of line 197. -/
def collapseWs (l : List Char) : List Char := collapseAux false l

/-- Python `str.strip()` (ASCII whitespace): drop leading and trailing
whitespace. -/
def pstrip (l : List Char) : List Char :=
  ((l.dropWhile isPySpace).reverse.dropWhile isPySpace).reverse

/-- The sentence list of line 197:
`[re.sub('\s+', ' ', p).strip() for p in parts if p and p.strip()]`
(filter on the raw part's truthiness and stripped truthiness, then
collapse whitespace and strip). -/
def segSentences (doc : List Char) : List (List Char) :=
  ((splitParts (normNl doc)).filter
      (fun p => !p.isEmpty && !(pstrip p).isEmpty)).map
    (fun p => pstrip (collapseWs p))

/-- The Segmenter, lines 194-200: split into sentences; if none were
found fall back to the first 2000 characters of the normalized text. -/
def segmentDoc (doc : List Char) : List (List Char) :=
  if segSentences doc = [] then [(normNl doc).take 2000] else segSentences doc

/-- Python `str.lower()` on the ASCII fragment (line 212/213). -/
def lowerStr (l : List Char) : List Char := l.map Char.toLower

/-- `similarities[i]` for an index produced by `argsort` (always in
range there; out-of-range reads default to 0 in the model). -/
def scoreAt (sims : List ℚ) (i : Nat) : ℚ := sims.getD i 0

/-- One step of a stable ascending insertion sort on indices: insert
index `i` before the first index of strictly larger score; an index of
equal score keeps its earlier position. -/
def insertAsc (v : Nat → ℚ) (i : Nat) : List Nat → List Nat
  | [] => [i]
  | j :: rest => if v i < v j then i :: j :: rest else j :: insertAsc v i rest

/-- `similarities.argsort()` (line 224) modelled as an ascending
insertion argsort of the indices `0, …, n-1`.  numpy's default
`argsort` is an unstable introsort that degenerates to exactly this
(stable) insertion sort only below its small-array cutoff, so the
model's tie order is faithful only in that small-array regime;
above the cutoff only the ascending score order is guaranteed.
Accordingly, the theorems below rely on the model's tie order solely
at small concrete inputs (two elements), and otherwise only on
score-sortedness, which holds for any correct argsort. -/
def argsortAsc (v : Nat → ℚ) : Nat → List Nat
  | 0 => []
  | n + 1 => insertAsc v n (argsortAsc v n)

/-- `ranked_idx = similarities.argsort()[::-1][:top_k]` with
`top_k = 3` (lines 223-224). -/
def rankedIdx (sims : List ℚ) : List Nat :=
  ((argsortAsc (scoreAt sims) sims.length).reverse).take 3

/-- The similarity threshold `score_threshold = 0.20` (line 228). -/
def scoreThreshold : ℚ := 1 / 5

/-- The loop of lines 233-241: walk the `(index, score)` pairs in rank
order, skip entries below the threshold, skip entries whose stripped
text is empty or already collected in `used`, and collect the stripped
text otherwise. -/
def buildMatched (sentences : List (List Char)) :
    List (Nat × ℚ) → List (List Char) → List (List Char)
  | [], _ => []
  | (idx, s) :: rest, used =>
    if s < scoreThreshold then buildMatched sentences rest used
    else
      let text := pstrip (sentences.getD idx [])
      if text ≠ [] ∧ text ∉ used then
        text :: buildMatched sentences rest (text :: used)
      else buildMatched sentences rest used

/-- Outcome of one invocation of the `/ask` pipeline.  `answered`
carries the synthesized answer, `computeError` the diagnostic string
built in the `except` branch (line 247). -/
inductive AnswerResult
  | emptyQuestion
  | noDocument
  | noConfidentMatch
  | answered (text : List Char)
  | computeError (msg : List Char)
deriving DecidableEq

/-- The post-scoring part of the pipeline, lines 222-245: rank, apply
the confidence gate, deduplicate, join with single spaces, hard-cut at
1200 characters. -/
def rankAndAnswer (sentences : List (List Char)) (sims : List ℚ) : AnswerResult :=
  match (rankedIdx sims).map (scoreAt sims) with
  | [] => .noConfidentMatch
  | b :: _ =>
    if b < scoreThreshold then .noConfidentMatch
    else if buildMatched sentences
        ((rankedIdx sims).zip ((rankedIdx sims).map (scoreAt sims))) [] = [] then
      .noConfidentMatch
    else
      .answered ((List.intercalate [' ']
        (buildMatched sentences
          ((rankedIdx sims).zip ((rankedIdx sims).map (scoreAt sims))) [])).take 1200)

/-- The message `str(e)` raised by the vectorizer on an empty
vocabulary (every term a stop word). -/
def emptyVocabMsg : List Char :=
  "empty vocabulary; perhaps the documents only contain stop words".toList

/-- The `/ask` handler, lines 184-248.  `vf` is the external
vectorize-and-score collaborator (sklearn): given the lower-cased
sentences and the lower-cased question it either returns the
similarity row (`cosine_similarity(q_vec, s_vecs).flatten()`) or
fails with an exception message, which the handler's `try/except`
turns into a diagnostic answer. -/
def askQuestion (docText : List Char)
    (vf : List (List Char) → List Char → Except (List Char) (List ℚ))
    (question : List Char) : AnswerResult :=
  let q := pstrip question
  if q = [] then .emptyQuestion
  else if pstrip docText = [] then .noDocument
  else
    let sentences := segmentDoc docText
    match vf (sentences.map lowerStr) (lowerStr q) with
    | .error e => .computeError ("Could not compute answer: ".toList ++ e)
    | .ok sims => rankAndAnswer sentences sims

/-- The fixed user-visible message of each outcome (lines 188, 191,
230/244, 245, 247). -/
def renderResult : AnswerResult → List Char
  | .emptyQuestion => "Ask a non-empty question".toList
  | .noDocument => "No document uploaded yet. Please upload first.".toList
  | .noConfidentMatch =>
      "I couldn't find a confident answer in the uploaded document.".toList
  | .answered t => t
  | .computeError m => m

/-- Follows the spec's words (§4.3 step 2), for comparison with
`rankedIdx`: "Sort Unit indices by similarity descending; ties broken
by original document order (earlier Unit wins) — this must be a stable
sort over the original sequence order".  Stable descending insertion
of a later index: it passes every index of strictly smaller score and
stays behind every index of greater-or-equal score. -/
def insertDescSpec (v : Nat → ℚ) (i : Nat) : List Nat → List Nat
  | [] => [i]
  | j :: rest => if v j < v i then i :: j :: rest else j :: insertDescSpec v i rest

/-- Spec-side stable descending argsort of the indices `0, …, n-1`. -/
def argsortDescSpec (v : Nat → ℚ) : Nat → List Nat
  | 0 => []
  | n + 1 => insertDescSpec v n (argsortDescSpec v n)

/-- Spec-side ranking (spec §4.3 steps 2-3): stable descending sort with
earlier-unit-wins ties, then the top `K = 3`. -/
def specRankedIdx (sims : List ℚ) : List Nat :=
  (argsortDescSpec (scoreAt sims) sims.length).take 3

/-! ## Vector space model

Modelled from the spec: the TF-IDF vectorization and the cosine
similarity live in the external `sklearn` library (`app.py` lines
206-220 only call it), so the vectors and the similarity are modelled
from spec §4.2/§4.3: vectors are "sparse mappings from vocabulary term
to non-negative weight", the weight of a term is its frequency in the
text times a shared inverse-document-frequency factor, and similarity
is the "dot product divided by the product of Euclidean norms; define
similarity = 0 when either vector has zero norm". -/

/-- Dot product of two coordinate vectors. -/
def dotQ : List ℚ → List ℚ → ℚ
  | [], _ => 0
  | _, [] => 0
  | a :: u, b :: v => a * b + dotQ u v

/-- Squared Euclidean norm. -/
def normSqQ (u : List ℚ) : ℚ := dotQ u u

/-- Modelled from the spec: cosine similarity (spec §4.3 step 1),
"dot product divided by the product of Euclidean norms; define
similarity = 0 when either vector has zero norm". -/
noncomputable def cosSim (u v : List ℚ) : ℝ :=
  if normSqQ u = 0 ∨ normSqQ v = 0 then 0
  else (dotQ u v : ℝ) / (Real.sqrt (normSqQ u : ℝ) * Real.sqrt (normSqQ v : ℝ))

/-- Modelled from the spec: the TF-IDF vector of a tokenized text over
a shared vocabulary (spec §4.2) — per term, frequency of the term in
the text times the corpus-wide inverse-document-frequency weight of
the term; the exact idf formula is the library's and enters as the
parameter `idf`. -/
def tfidfVec (idf : List Char → ℚ) (vocab tokens : List (List Char)) : List ℚ :=
  vocab.map (fun t => (tokens.count t : ℚ) * idf t)

/-! ## Segmenter lemmas -/

theorem pstrip_eq_nil_iff (l : List Char) :
    pstrip l = [] ↔ ∀ c ∈ l, isPySpace c := by
  unfold pstrip
  rw [List.reverse_eq_nil_iff, List.dropWhile_eq_nil_iff]
  constructor
  · intro h c hc
    rw [← List.takeWhile_append_dropWhile (p := isPySpace) (l := l)] at hc
    rcases List.mem_append.1 hc with h1 | h2
    · exact List.mem_takeWhile_imp h1
    · exact h c (List.mem_reverse.2 h2)
  · intro h c hc
    exact h c ((List.dropWhile_sublist isPySpace).mem (List.mem_reverse.1 hc))

theorem exists_nonspace_of_pstrip_ne_nil {l : List Char} (h : pstrip l ≠ []) :
    ∃ c ∈ l, isPySpace c = false := by
  by_contra hno
  push_neg at hno
  refine h ((pstrip_eq_nil_iff l).2 fun c hc => ?_)
  have := hno c hc
  simpa using this

theorem mem_normNlAux {c : Char} (hc : isPySpace c = false) :
    ∀ (l : List Char) (b : Bool), c ∈ l → c ∈ normNlAux b l := by
  intro l
  induction l with
  | nil => intro b h; simp at h
  | cons a t ih =>
    intro b hm
    have hcr : c ≠ '\r' := by rintro rfl; simp [isPySpace] at hc
    have hcn : c ≠ '\n' := by rintro rfl; simp [isPySpace] at hc
    rcases List.mem_cons.1 hm with rfl | ht
    · simp only [normNlAux]
      split_ifs with h1 h2
      · exact absurd h1 hcr
      · exact absurd h2.2 hcn
      · exact List.mem_cons_self c _
    · simp only [normNlAux]
      split_ifs with h1 h2
      · exact List.mem_cons_of_mem _ (ih true ht)
      · exact ih false ht
      · exact List.mem_cons_of_mem _ (ih false ht)

theorem normNlAux_eq_self :
    ∀ l : List Char, (∀ c ∈ l, c ≠ '\r') → normNlAux false l = l := by
  intro l
  induction l with
  | nil => intro _; rfl
  | cons a t ih =>
    intro hl
    have ha : a ≠ '\r' := hl a (List.mem_cons_self a t)
    simp only [normNlAux, if_neg ha]
    rw [if_neg (by simp)]
    rw [ih fun c hc => hl c (List.mem_cons_of_mem _ hc)]

theorem splitAux_cover {c : Char} (hc : isPySpace c = false) :
    ∀ (l : List Char) (prev : Option Char) (mode : SMode) (cur : List Char),
      (c ∈ l ∨ (mode = .text ∧ c ∈ cur)) →
      ∃ p ∈ splitAux prev mode cur l, c ∈ p := by
  intro l
  induction l with
  | nil =>
    intro prev mode cur hm
    rcases hm with h | ⟨hmode, hcur⟩
    · simp at h
    · subst hmode
      exact ⟨cur.reverse, by simp [splitAux], List.mem_reverse.2 hcur⟩
  | cons a t ih =>
    intro prev mode cur hm
    cases mode with
    | text =>
      simp only [splitAux]
      split_ifs with h1 h2
      · rcases hm with hml | ⟨_, hcur⟩
        · rcases List.mem_cons.1 hml with hceq | hmt
          · rw [Bool.and_eq_true] at h1
            rw [← hceq, hc] at h1
            exact absurd h1.2 (by decide)
          · obtain ⟨p, hp, hcp⟩ := ih (some a) .wsSep [] (Or.inl hmt)
            exact ⟨p, List.mem_cons_of_mem _ hp, hcp⟩
        · exact ⟨cur.reverse, List.mem_cons_self _ _, List.mem_reverse.2 hcur⟩
      · rcases hm with hml | ⟨_, hcur⟩
        · rcases List.mem_cons.1 hml with hceq | hmt
          · rw [hceq, h2] at hc
            exact absurd hc (by decide)
          · obtain ⟨p, hp, hcp⟩ := ih (some a) .nlSep [] (Or.inl hmt)
            exact ⟨p, List.mem_cons_of_mem _ hp, hcp⟩
        · exact ⟨cur.reverse, List.mem_cons_self _ _, List.mem_reverse.2 hcur⟩
      · apply ih (some a) .text (a :: cur)
        rcases hm with hml | ⟨_, hcur⟩
        · rcases List.mem_cons.1 hml with hceq | hmt
          · exact Or.inr ⟨rfl, by rw [hceq]; exact List.mem_cons_self a cur⟩
          · exact Or.inl hmt
        · exact Or.inr ⟨rfl, List.mem_cons_of_mem _ hcur⟩
    | wsSep =>
      simp only [splitAux]
      split_ifs with h1
      · rcases hm with hml | ⟨hmode, _⟩
        · rcases List.mem_cons.1 hml with hceq | hmt
          · rw [← hceq, hc] at h1
            exact absurd h1 (by decide)
          · exact ih (some a) .wsSep cur (Or.inl hmt)
        · cases hmode
      · rcases hm with hml | ⟨hmode, _⟩
        · rcases List.mem_cons.1 hml with hceq | hmt
          · exact ih (some a) .text [a] (Or.inr ⟨rfl, by rw [hceq]; exact List.mem_cons_self a []⟩)
          · exact ih (some a) .text [a] (Or.inl hmt)
        · cases hmode
    | nlSep =>
      simp only [splitAux]
      split_ifs with h1
      · rcases hm with hml | ⟨hmode, _⟩
        · rcases List.mem_cons.1 hml with hceq | hmt
          · rw [hceq, h1] at hc
            exact absurd hc (by decide)
          · exact ih (some a) .nlSep cur (Or.inl hmt)
        · cases hmode
      · rcases hm with hml | ⟨hmode, _⟩
        · rcases List.mem_cons.1 hml with hceq | hmt
          · exact ih (some a) .text [a] (Or.inr ⟨rfl, by rw [hceq]; exact List.mem_cons_self a []⟩)
          · exact ih (some a) .text [a] (Or.inl hmt)
        · cases hmode

theorem segSentences_ne_nil {doc : List Char} (h : pstrip doc ≠ []) :
    segSentences doc ≠ [] := by
  obtain ⟨c, hcmem, hc⟩ := exists_nonspace_of_pstrip_ne_nil h
  have h1 : c ∈ normNl doc := mem_normNlAux hc doc false hcmem
  obtain ⟨p, hp, hcp⟩ := splitAux_cover hc (normNl doc) none .text [] (Or.inl h1)
  have hpne : p ≠ [] := by rintro rfl; simp at hcp
  have hps : pstrip p ≠ [] := by
    intro e
    have := (pstrip_eq_nil_iff p).1 e c hcp
    rw [this] at hc; cases hc
  intro hempty
  unfold segSentences at hempty
  rw [List.map_eq_nil_iff] at hempty
  have hmem : p ∈ (splitParts (normNl doc)).filter
      (fun q => !q.isEmpty && !(pstrip q).isEmpty) := by
    refine List.mem_filter.2 ⟨hp, ?_⟩
    simp only [Bool.and_eq_true, Bool.not_eq_true']
    exact ⟨by simp [List.isEmpty_iff, hpne], by simp [List.isEmpty_iff, hps]⟩
  rw [hempty] at hmem
  simp at hmem

theorem splitAux_eq_single :
    ∀ (l : List Char) (prev : Option Char) (cur : List Char),
      (∀ c ∈ l, isTermPunct c = false ∧ c ≠ '\n') →
      prevPunct prev = false →
      splitAux prev .text cur l = [cur.reverse ++ l] := by
  intro l
  induction l with
  | nil => intro prev cur _ _; simp [splitAux]
  | cons a t ih =>
    intro prev cur hl hprev
    obtain ⟨ha1, ha2⟩ := hl a (List.mem_cons_self a t)
    simp only [splitAux]
    rw [if_neg (by rw [hprev]; simp), if_neg ha2]
    rw [ih (some a) (a :: cur) (fun c hc => hl c (List.mem_cons_of_mem _ hc))
        (by simp [prevPunct, ha1])]
    simp

theorem collapseAux_eq_self :
    ∀ (l : List Char) (b : Bool), (∀ c ∈ l, isPySpace c = false) → collapseAux b l = l := by
  intro l
  induction l with
  | nil => intro b _; rfl
  | cons a t ih =>
    intro b hl
    have ha : isPySpace a = false := hl a (List.mem_cons_self a t)
    simp only [collapseAux, ha]
    rw [ih false fun c hc => hl c (List.mem_cons_of_mem _ hc)]
    simp

theorem dropWhile_eq_self_of_none {l : List Char} (h : ∀ c ∈ l, isPySpace c = false) :
    l.dropWhile isPySpace = l := by
  cases l with
  | nil => rfl
  | cons a t =>
    rw [List.dropWhile_cons_of_neg]
    simp [h a (List.mem_cons_self a t)]

theorem pstrip_eq_self {l : List Char} (h : ∀ c ∈ l, isPySpace c = false) :
    pstrip l = l := by
  unfold pstrip
  rw [dropWhile_eq_self_of_none h,
    dropWhile_eq_self_of_none (fun c hc => h c (List.mem_reverse.1 hc)),
    List.reverse_reverse]

/-- C10: for every document text that passes the no-document guard
(contains a non-whitespace character), the sentence list computed on
line 197 is non-empty, so the first-2000-characters fallback branch of
lines 199-200 is never taken in a reachable invocation of
`ask_question`. -/
theorem C10_fallback_unreachable (doc : List Char) (h : pstrip doc ≠ []) :
    segSentences doc ≠ [] ∧ segmentDoc doc = segSentences doc := by
  have h1 := segSentences_ne_nil h
  exact ⟨h1, by rw [segmentDoc, if_neg h1]⟩

/-- Witness for `C10_fallback_unreachable` at a concrete document. -/
theorem C10_fallback_unreachable_witness :
    segSentences ['a'] ≠ [] ∧ segmentDoc ['a'] = segSentences ['a'] :=
  C10_fallback_unreachable ['a'] (by decide)

theorem segmentDoc_no_boundary (l : List Char)
    (hl : ∀ c ∈ l, c ≠ '\n' ∧ c ≠ '\r' ∧ isTermPunct c = false)
    (hne : ∃ c ∈ l, isPySpace c = false) :
    segmentDoc l = [pstrip (collapseWs l)] := by
  have hnorm : normNl l = l := normNlAux_eq_self l fun c hc => (hl c hc).2.1
  have hsplit : splitParts l = [l] := by
    unfold splitParts
    rw [splitAux_eq_single l none []
      (fun c hc => ⟨(hl c hc).2.2, (hl c hc).1⟩) rfl]
    rfl
  obtain ⟨c, hcm, hc⟩ := hne
  have hlne : l ≠ [] := by rintro rfl; simp at hcm
  have hps : pstrip l ≠ [] := by
    intro e
    have := (pstrip_eq_nil_iff l).1 e c hcm
    rw [this] at hc; cases hc
  have hsent : segSentences l = [pstrip (collapseWs l)] := by
    unfold segSentences
    rw [hnorm, hsplit, List.filter_cons]
    rw [if_pos (by
      simp only [Bool.and_eq_true, Bool.not_eq_true']
      exact ⟨by simp [List.isEmpty_iff, hlne], by simp [List.isEmpty_iff, hps]⟩)]
    rfl
  rw [segmentDoc, hsent]
  rw [if_neg (by simp [hsent])]

/-- C3 (amended): a document with no newline, no carriage return and no
sentence-terminal punctuation — in particular the run-on Scenario D
document — does NOT trigger the Segmenter fallback: it produces exactly
one Unit consisting of the entire whitespace-collapsed and trimmed text
(not the first 2000 characters). -/
theorem C3_run_on_single_unit (l : List Char)
    (hl : ∀ c ∈ l, c ≠ '\n' ∧ c ≠ '\r' ∧ isTermPunct c = false)
    (hne : ∃ c ∈ l, isPySpace c = false) :
    segmentDoc l = [pstrip (collapseWs l)] :=
  segmentDoc_no_boundary l hl hne

/-- Witness for `C3_run_on_single_unit`, at the Scenario D shape: a
2001-character run-on document. -/
theorem C3_run_on_single_unit_witness :
    segmentDoc (List.replicate 2001 'a') =
      [pstrip (collapseWs (List.replicate 2001 'a'))] :=
  C3_run_on_single_unit (List.replicate 2001 'a')
    (fun c hc => by
      rw [List.eq_of_mem_replicate hc]
      exact ⟨by decide, by decide, by decide⟩)
    ⟨'a', List.mem_replicate.2 ⟨by decide, rfl⟩, by decide⟩

/-- C3 counterexample: for the Scenario D document of 2001 letters
`a` (no punctuation, no newline, length > 2000) the Segmenter does not
produce a Unit of length 2000: it produces exactly one Unit of length
2001, the whole text, so the claimed fallback-to-2000-characters does
not happen. -/
theorem C3_counterexample :
    segmentDoc (List.replicate 2001 'a') = [List.replicate 2001 'a'] ∧
    2000 < (List.replicate 2001 'a').length ∧
    segmentDoc (List.replicate 2001 'a') ≠
      [(normNl (List.replicate 2001 'a')).take 2000] := by
  have hmem : ∀ c ∈ List.replicate 2001 'a', c = 'a' :=
    fun c hc => List.eq_of_mem_replicate hc
  have hall : ∀ c ∈ List.replicate 2001 'a', isPySpace c = false :=
    fun c hc => by rw [hmem c hc]; decide
  have h1 : segmentDoc (List.replicate 2001 'a') =
      [pstrip (collapseWs (List.replicate 2001 'a'))] :=
    segmentDoc_no_boundary _
      (fun c hc => by rw [hmem c hc]; exact ⟨by decide, by decide, by decide⟩)
      ⟨'a', List.mem_replicate.2 ⟨by decide, rfl⟩, by decide⟩
  have h2 : collapseWs (List.replicate 2001 'a') = List.replicate 2001 'a' :=
    collapseAux_eq_self _ false hall
  have h3 : pstrip (List.replicate 2001 'a') = List.replicate 2001 'a' :=
    pstrip_eq_self hall
  have hseg : segmentDoc (List.replicate 2001 'a') = [List.replicate 2001 'a'] := by
    rw [h1, h2, h3]
  refine ⟨hseg, by rw [List.length_replicate]; omega, ?_⟩
  rw [hseg, show normNl (List.replicate 2001 'a') = List.replicate 2001 'a' from
    normNlAux_eq_self _ (fun c hc => by rw [hmem c hc]; decide)]
  intro he
  have hx : List.replicate 2001 'a' = (List.replicate 2001 'a').take 2000 := by
    injection he
  have hlen := congrArg List.length hx
  rw [List.length_take, List.length_replicate] at hlen
  omega

/-! ## Ranker lemmas -/

theorem mem_insertAsc (v : Nat → ℚ) (i x : Nat) :
    ∀ l : List Nat, x ∈ insertAsc v i l ↔ x = i ∨ x ∈ l := by
  intro l
  induction l with
  | nil => simp [insertAsc]
  | cons j t ih =>
    simp only [insertAsc]
    split_ifs with h
    · simp only [List.mem_cons]
    · simp only [List.mem_cons, ih]
      tauto

theorem length_insertAsc (v : Nat → ℚ) (i : Nat) :
    ∀ l : List Nat, (insertAsc v i l).length = l.length + 1 := by
  intro l
  induction l with
  | nil => rfl
  | cons j t ih =>
    simp only [insertAsc]
    split_ifs with h
    · simp
    · simp only [List.length_cons, ih]

theorem pairwise_insertAsc (v : Nat → ℚ) (i : Nat) :
    ∀ l : List Nat,
      l.Pairwise (fun a b => v a < v b ∨ (v a = v b ∧ a < b)) →
      (∀ j ∈ l, j < i) →
      (insertAsc v i l).Pairwise (fun a b => v a < v b ∨ (v a = v b ∧ a < b)) := by
  intro l
  induction l with
  | nil =>
    intro _ _
    simp [insertAsc]
  | cons j t ih =>
    intro hp hlt
    rw [List.pairwise_cons] at hp
    obtain ⟨hj, ht⟩ := hp
    simp only [insertAsc]
    split_ifs with h
    · rw [List.pairwise_cons]
      refine ⟨?_, List.pairwise_cons.2 ⟨hj, ht⟩⟩
      intro x hx
      rcases List.mem_cons.1 hx with hxe | hxt
      · rw [hxe]; exact Or.inl h
      · rcases hj x hxt with h1 | ⟨h1, _⟩
        · exact Or.inl (h.trans h1)
        · exact Or.inl (h.trans_le h1.le)
    · rw [List.pairwise_cons]
      refine ⟨?_, ih ht fun x hx => hlt x (List.mem_cons_of_mem _ hx)⟩
      intro x hx
      rcases (mem_insertAsc v i x t).1 hx with hxe | hxt
      · rw [hxe]
        rcases lt_or_eq_of_le (not_lt.1 h) with h1 | h1
        · exact Or.inl h1
        · exact Or.inr ⟨h1, hlt j (List.mem_cons_self j t)⟩
      · exact hj x hxt

theorem argsortAsc_invariants (v : Nat → ℚ) :
    ∀ n : Nat,
      (argsortAsc v n).Pairwise (fun a b => v a < v b ∨ (v a = v b ∧ a < b)) ∧
      (∀ j ∈ argsortAsc v n, j < n) ∧ (argsortAsc v n).length = n := by
  intro n
  induction n with
  | zero => simp [argsortAsc]
  | succ m ih =>
    obtain ⟨hp, hb, hl⟩ := ih
    have hstep : argsortAsc v (m + 1) = insertAsc v m (argsortAsc v m) := rfl
    refine ⟨?_, ?_, ?_⟩
    · rw [hstep]; exact pairwise_insertAsc v m _ hp hb
    · intro j hj
      rw [hstep] at hj
      rcases (mem_insertAsc v m j _).1 hj with hje | hjm
      · omega
      · exact (hb j hjm).trans (Nat.lt_succ_self m)
    · rw [hstep, length_insertAsc, hl]

/-- Ordering of the model's ranked index list.  The index component of
the disjunction (`j < i` on ties) is an artifact of the insertion-sort
model and is relied on by no downstream theorem; everything below uses
only the score component (descending scores), which holds for any
correct argsort. -/
theorem rankedIdx_pairwise (sims : List ℚ) :
    (rankedIdx sims).Pairwise
      (fun i j => scoreAt sims j < scoreAt sims i ∨
        (scoreAt sims j = scoreAt sims i ∧ j < i)) := by
  have h := (argsortAsc_invariants (scoreAt sims) sims.length).1
  have h2 := List.pairwise_reverse.2 h
  exact h2.sublist (List.take_sublist 3 _)

theorem rankedIdx_length (sims : List ℚ) :
    (rankedIdx sims).length = min 3 sims.length := by
  unfold rankedIdx
  rw [List.length_take, List.length_reverse,
    (argsortAsc_invariants (scoreAt sims) sims.length).2.2]

theorem rankedIdx_mem_lt {sims : List ℚ} {i : Nat} (h : i ∈ rankedIdx sims) :
    i < sims.length := by
  unfold rankedIdx at h
  exact (argsortAsc_invariants (scoreAt sims) sims.length).2.1 i
    (List.mem_reverse.1 (List.mem_of_mem_take h))

theorem rankedIdx_ne_nil {sims : List ℚ} (h : sims ≠ []) : rankedIdx sims ≠ [] := by
  intro he
  have hlen := rankedIdx_length sims
  rw [he, List.length_nil] at hlen
  have hpos : 0 < sims.length := List.length_pos.2 h
  omega

/-- C2 counterexample: for two units of equal score 1/2, the spec's
stable earlier-unit-wins descending sort ranks them `[0, 1]`, but the
code's `argsort()[::-1]` ranks them `[1, 0]` — the later unit comes
first, so the claimed earlier-unit-wins stable ordering is false. -/
theorem C2_counterexample :
    rankedIdx [(1 : ℚ)/2, (1 : ℚ)/2] = [1, 0] ∧
    specRankedIdx [(1 : ℚ)/2, (1 : ℚ)/2] = [0, 1] ∧
    rankedIdx [(1 : ℚ)/2, (1 : ℚ)/2] ≠ specRankedIdx [(1 : ℚ)/2, (1 : ℚ)/2] := by
  have h1 : rankedIdx [(1 : ℚ)/2, (1 : ℚ)/2] = [1, 0] := by
    norm_num [rankedIdx, argsortAsc, insertAsc, scoreAt, List.getD]
  have h2 : specRankedIdx [(1 : ℚ)/2, (1 : ℚ)/2] = [0, 1] := by
    norm_num [specRankedIdx, argsortDescSpec, insertDescSpec, scoreAt, List.getD]
  refine ⟨h1, h2, ?_⟩
  rw [h1, h2]
  simp

/-- C2 (amended): the ranking sorts unit indices by similarity score
descending — the only ordering guarantee `argsort()[::-1][:3]` gives —
but the tie-break is NOT the claimed stable earlier-unit-wins document
order: at the two-tied-unit counterexample (where numpy's argsort is
an insertion sort) the later unit comes first, and for larger arrays
numpy's default argsort is an unstable introsort, so no document-order
tie-break is guaranteed at all.  This theorem states the descending
score order, which holds for any correct argsort, stable or not. -/
theorem C2_sorted_descending (sims : List ℚ) :
    ((rankedIdx sims).map (scoreAt sims)).Pairwise fun a b => b ≤ a := by
  refine (rankedIdx_pairwise sims).map _ ?_
  intro i j hij
  rcases hij with h1 | ⟨h1, _⟩
  · exact h1.le
  · exact h1.le

/-! ## Synthesizer lemmas -/

theorem mem_buildMatched (sentences : List (List Char)) :
    ∀ (pairs : List (Nat × ℚ)) (used : List (List Char)) (t : List Char),
      t ∈ buildMatched sentences pairs used ↔
        (t ∉ used ∧ t ≠ [] ∧
          ∃ p ∈ pairs, ¬ p.2 < scoreThreshold ∧
            pstrip (sentences.getD p.1 []) = t) := by
  intro pairs
  induction pairs with
  | nil =>
    intro used t
    simp [buildMatched]
  | cons a rest ih =>
    intro used t
    obtain ⟨idx, s⟩ := a
    simp only [buildMatched]
    split_ifs with hs hacc
    · rw [ih]
      constructor
      · rintro ⟨h1, h2, p, hp, h3⟩
        exact ⟨h1, h2, p, List.mem_cons_of_mem _ hp, h3⟩
      · rintro ⟨h1, h2, p, hp, h3, h4⟩
        rcases List.mem_cons.1 hp with hpe | hpr
        · rw [hpe] at h3; exact absurd hs h3
        · exact ⟨h1, h2, p, hpr, h3, h4⟩
    · obtain ⟨htne, htu⟩ := hacc
      rw [List.mem_cons, ih]
      constructor
      · rintro (hte | ⟨h1, h2, p, hp, h3, h4⟩)
        · rw [hte]
          exact ⟨htu, htne, (idx, s), List.mem_cons_self _ _, hs, rfl⟩
        · refine ⟨fun hu => h1 (List.mem_cons_of_mem _ hu), h2,
            p, List.mem_cons_of_mem _ hp, h3, h4⟩
      · rintro ⟨h1, h2, p, hp, h3, h4⟩
        by_cases hte : t = pstrip (sentences.getD idx [])
        · exact Or.inl hte
        · rcases List.mem_cons.1 hp with hpe | hpr
          · rw [hpe] at h4
            exact absurd h4.symm hte
          · refine Or.inr ⟨?_, h2, p, hpr, h3, h4⟩
            intro hu
            rcases List.mem_cons.1 hu with h5 | h5
            · exact hte h5
            · exact h1 h5
    · rw [ih]
      constructor
      · rintro ⟨h1, h2, p, hp, h3⟩
        exact ⟨h1, h2, p, List.mem_cons_of_mem _ hp, h3⟩
      · rintro ⟨h1, h2, p, hp, h3, h4⟩
        rcases List.mem_cons.1 hp with hpe | hpr
        · rw [hpe] at h3 h4
          simp only at h3 h4
          exact absurd ⟨by rw [h4]; exact h2, by rw [h4]; exact h1⟩ hacc
        · exact ⟨h1, h2, p, hpr, h3, h4⟩

theorem buildMatched_nodup (sentences : List (List Char)) :
    ∀ (pairs : List (Nat × ℚ)) (used : List (List Char)),
      (buildMatched sentences pairs used).Nodup ∧
      ∀ t ∈ buildMatched sentences pairs used, t ∉ used := by
  intro pairs
  induction pairs with
  | nil =>
    intro used
    simp [buildMatched]
  | cons a rest ih =>
    intro used
    obtain ⟨idx, s⟩ := a
    simp only [buildMatched]
    split_ifs with hs hacc
    · exact ih used
    · obtain ⟨htne, htu⟩ := hacc
      obtain ⟨hnd, hdisj⟩ := ih (pstrip (sentences.getD idx []) :: used)
      constructor
      · rw [List.nodup_cons]
        exact ⟨fun hmem => hdisj _ hmem (List.mem_cons_self _ _), hnd⟩
      · intro t ht
        rcases List.mem_cons.1 ht with hte | htm
        · rw [hte]; exact htu
        · intro hu
          exact hdisj t htm (List.mem_cons_of_mem _ hu)
    · exact ih used

theorem zip_map_self {α β : Type} (f : α → β) :
    ∀ l : List α, l.zip (l.map f) = l.map fun x => (x, f x) := by
  intro l
  induction l with
  | nil => rfl
  | cons a t ih => simp [ih]

theorem askQuestion_guards (doc question : List Char)
    (vf : List (List Char) → List Char → Except (List Char) (List ℚ))
    (hq : pstrip question ≠ []) (hdoc : pstrip doc ≠ []) :
    askQuestion doc vf question =
      match vf ((segmentDoc doc).map lowerStr) (lowerStr (pstrip question)) with
      | .error e => .computeError ("Could not compute answer: ".toList ++ e)
      | .ok sims => rankAndAnswer (segmentDoc doc) sims := by
  simp only [askQuestion]
  rw [if_neg hq, if_neg hdoc]

theorem rankAndAnswer_gate (sentences : List (List Char)) (sims : List ℚ) :
    (rankedIdx sims = [] → rankAndAnswer sentences sims = .noConfidentMatch) ∧
    ∀ b : ℚ, b ∈ (rankedIdx sims).map (scoreAt sims) →
      (∀ x ∈ (rankedIdx sims).map (scoreAt sims), x ≤ b) →
      ((b < scoreThreshold → rankAndAnswer sentences sims = .noConfidentMatch) ∧
       (scoreThreshold ≤ b →
         (∃ i ∈ rankedIdx sims, scoreThreshold ≤ scoreAt sims i ∧
            pstrip (sentences.getD i []) ≠ []) →
         ∃ t, rankAndAnswer sentences sims = .answered t)) := by
  constructor
  · intro h
    unfold rankAndAnswer
    rw [h]
    simp
  · intro b hb hmax
    obtain ⟨a, rest, htops⟩ : ∃ a rest,
        (rankedIdx sims).map (scoreAt sims) = a :: rest := by
      rcases hx : (rankedIdx sims).map (scoreAt sims) with _ | ⟨a, rest⟩
      · rw [hx] at hb; simp at hb
      · exact ⟨a, rest, rfl⟩
    have hsort : ((rankedIdx sims).map (scoreAt sims)).Pairwise fun x y => y ≤ x := by
      refine (rankedIdx_pairwise sims).map _ ?_
      intro i j hij
      rcases hij with h1 | ⟨h1, _⟩
      · exact h1.le
      · exact h1.le
    have hba : b = a := by
      have h1 : b ≤ a := by
        rw [htops] at hb
        rcases List.mem_cons.1 hb with he | hm
        · rw [he]
        · rw [htops] at hsort
          exact (List.pairwise_cons.1 hsort).1 b hm
      have h2 : a ≤ b := hmax a (by rw [htops]; exact List.mem_cons_self a rest)
      exact le_antisymm h1 h2
    constructor
    · intro hlt
      unfold rankAndAnswer
      rw [htops]
      simp only
      rw [if_pos (by rw [← hba]; exact hlt)]
    · intro hge hqual
      obtain ⟨i, hi, hscore, htext⟩ := hqual
      unfold rankAndAnswer
      rw [htops]
      simp only
      rw [if_neg (by rw [← hba]; exact not_lt.2 hge)]
      have hmm : pstrip (sentences.getD i []) ∈
          buildMatched sentences ((rankedIdx sims).zip (a :: rest)) [] := by
        rw [← htops, zip_map_self]
        refine (mem_buildMatched sentences _ [] _).2
          ⟨by simp, htext, (i, scoreAt sims i), List.mem_map_of_mem _ hi,
            not_lt.2 hscore, rfl⟩
      rw [if_neg (List.ne_nil_of_mem hmm)]
      exact ⟨_, rfl⟩

/-- C1: in an invocation where vectorization and scoring succeed, if
the top-K candidate set is empty or its best (highest) score is below
the 0.20 threshold, the result is the no-confident-match outcome; if
the best score is at or above 0.20 and some top-K unit qualifies
(score at or above the threshold and non-empty trimmed text), the
result is the answered outcome. -/
theorem C1_threshold_gate (doc question : List Char)
    (vf : List (List Char) → List Char → Except (List Char) (List ℚ)) (sims : List ℚ)
    (hq : pstrip question ≠ []) (hdoc : pstrip doc ≠ [])
    (hok : vf ((segmentDoc doc).map lowerStr) (lowerStr (pstrip question)) = .ok sims) :
    (rankedIdx sims = [] → askQuestion doc vf question = .noConfidentMatch) ∧
    ∀ b : ℚ, b ∈ (rankedIdx sims).map (scoreAt sims) →
      (∀ x ∈ (rankedIdx sims).map (scoreAt sims), x ≤ b) →
      ((b < scoreThreshold → askQuestion doc vf question = .noConfidentMatch) ∧
       (scoreThreshold ≤ b →
         (∃ i ∈ rankedIdx sims, scoreThreshold ≤ scoreAt sims i ∧
            pstrip ((segmentDoc doc).getD i []) ≠ []) →
         ∃ t, askQuestion doc vf question = .answered t)) := by
  have heq : askQuestion doc vf question = rankAndAnswer (segmentDoc doc) sims := by
    rw [askQuestion_guards doc question vf hq hdoc, hok]
  rw [heq]
  exact rankAndAnswer_gate (segmentDoc doc) sims

/-- Witness for `C1_threshold_gate`: a one-sentence document whose
single unit scores 1 against the question yields an answered result. -/
theorem C1_threshold_gate_witness :
    ∃ t, askQuestion "hello world".toList (fun _ _ => .ok [1]) "hello".toList =
      .answered t := by
  have h := C1_threshold_gate "hello world".toList "hello".toList
    (fun _ _ => .ok [1]) [1] (by decide) (by decide) rfl
  refine (h.2 1 ?_ ?_).2 ?_ ⟨0, ?_, ?_, ?_⟩
  · norm_num [rankedIdx, argsortAsc, insertAsc, scoreAt, List.getD]
  · norm_num [rankedIdx, argsortAsc, insertAsc, scoreAt, List.getD]
  · norm_num [scoreThreshold]
  · norm_num [rankedIdx, argsortAsc, insertAsc, scoreAt, List.getD]
  · norm_num [scoreAt, List.getD, scoreThreshold]
  · decide

theorem rankAndAnswer_answered {sentences : List (List Char)} {sims : List ℚ}
    {t : List Char} (h : rankAndAnswer sentences sims = .answered t) :
    t = (List.intercalate [' ']
      (buildMatched sentences
        ((rankedIdx sims).zip ((rankedIdx sims).map (scoreAt sims))) [])).take 1200 := by
  unfold rankAndAnswer at h
  rcases hx : (rankedIdx sims).map (scoreAt sims) with _ | ⟨a, rest⟩
  · rw [hx] at h; simp at h
  · rw [hx] at h
    simp only at h
    split_ifs at h with h1 h2
    injection h with h
    exact h.symm

/-- C5: for every invocation of the pipeline, an answered result
carries a text of at most 1200 characters, obtained by joining the
accepted unit texts with single spaces and hard-truncating at 1200
characters. -/
theorem C5_length_cap (doc question : List Char)
    (vf : List (List Char) → List Char → Except (List Char) (List ℚ))
    (t : List Char) (h : askQuestion doc vf question = .answered t) :
    t.length ≤ 1200 ∧
    ∃ ms : List (List Char), t = (List.intercalate [' '] ms).take 1200 := by
  simp only [askQuestion] at h
  split_ifs at h with h1 h2
  rcases hv : vf ((segmentDoc doc).map lowerStr) (lowerStr (pstrip question))
      with e | sims
  · rw [hv] at h; simp at h
  · rw [hv] at h
    have ht := rankAndAnswer_answered h
    refine ⟨?_, _, ht⟩
    rw [ht, List.length_take]
    exact min_le_left _ _

/-- Witness for `C5_length_cap` at a concrete answered invocation. -/
theorem C5_length_cap_witness :
    "hello world".toList.length ≤ 1200 ∧
    ∃ ms : List (List Char),
      "hello world".toList = (List.intercalate [' '] ms).take 1200 := by
  refine C5_length_cap "hello world".toList "hello".toList
    (fun _ _ => .ok [1]) "hello world".toList ?_
  have hseg : segmentDoc "hello world".toList = ["hello world".toList] := by decide
  simp only [askQuestion]
  rw [if_neg (by decide), if_neg (by decide)]
  simp only [hseg]
  norm_num [rankAndAnswer, rankedIdx, argsortAsc, insertAsc, scoreAt, List.getD,
    buildMatched, scoreThreshold]
  decide

/-- C6: if the stored document text is empty (or whitespace only), the
pipeline returns the distinct no-document result, for any vectorizer
collaborator and before any segmentation or scoring can matter. -/
theorem C6_no_document (doc question : List Char)
    (vf : List (List Char) → List Char → Except (List Char) (List ℚ))
    (hq : pstrip question ≠ []) (hdoc : pstrip doc = []) :
    askQuestion doc vf question = .noDocument := by
  simp only [askQuestion]
  rw [if_neg hq, if_pos hdoc]

/-- Witness for `C6_no_document` at Scenario C. -/
theorem C6_no_document_witness :
    askQuestion "".toList (fun _ _ => .ok []) "anything".toList = .noDocument :=
  C6_no_document "".toList "anything".toList (fun _ _ => .ok []) (by decide) (by decide)

/-- C9: a failure inside the vectorization-and-scoring collaborator is
caught at the pipeline boundary: the invocation returns the
well-formed diagnostic result carrying the exception message, it never
propagates the fault. -/
theorem C9_failure_caught (doc question : List Char)
    (vf : List (List Char) → List Char → Except (List Char) (List ℚ))
    (e : List Char)
    (hq : pstrip question ≠ []) (hdoc : pstrip doc ≠ [])
    (he : vf ((segmentDoc doc).map lowerStr) (lowerStr (pstrip question)) = .error e) :
    askQuestion doc vf question =
      .computeError ("Could not compute answer: ".toList ++ e) := by
  simp only [askQuestion]
  rw [if_neg hq, if_neg hdoc, he]

/-- Witness for `C9_failure_caught` with a concrete raising collaborator. -/
theorem C9_failure_caught_witness :
    askQuestion "some text".toList (fun _ _ => .error "boom".toList) "hi".toList =
      .computeError ("Could not compute answer: ".toList ++ "boom".toList) :=
  C9_failure_caught "some text".toList "hi".toList
    (fun _ _ => .error "boom".toList) "boom".toList (by decide) (by decide) rfl

/-- C4 (amended): when the vectorizer fails with the empty-vocabulary
error, the pipeline does not raise — it returns the diagnostic
compute-error result `"Could not compute answer: empty vocabulary;
…"`, which is a different outcome, with a different user-visible
message, from the no-confident-match result (so the two are NOT
identical at the result level). -/
theorem C4_empty_vocabulary (doc question : List Char)
    (hq : pstrip question ≠ []) (hdoc : pstrip doc ≠ []) :
    askQuestion doc (fun _ _ => .error emptyVocabMsg) question =
      .computeError ("Could not compute answer: ".toList ++ emptyVocabMsg) ∧
    askQuestion doc (fun _ _ => .error emptyVocabMsg) question ≠
      .noConfidentMatch ∧
    renderResult (askQuestion doc (fun _ _ => .error emptyVocabMsg) question) ≠
      renderResult .noConfidentMatch := by
  have h : askQuestion doc (fun _ _ => .error emptyVocabMsg) question =
      .computeError ("Could not compute answer: ".toList ++ emptyVocabMsg) := by
    simp only [askQuestion]
    rw [if_neg hq, if_neg hdoc]
  refine ⟨h, ?_, ?_⟩
  · rw [h]; simp
  · rw [h]; decide

/-- Witness for `C4_empty_vocabulary` at a concrete stop-word-only
document and question. -/
theorem C4_empty_vocabulary_witness :
    askQuestion "the of and".toList (fun _ _ => .error emptyVocabMsg) "of the".toList =
      .computeError ("Could not compute answer: ".toList ++ emptyVocabMsg) ∧
    askQuestion "the of and".toList (fun _ _ => .error emptyVocabMsg) "of the".toList ≠
      .noConfidentMatch ∧
    renderResult (askQuestion "the of and".toList
        (fun _ _ => .error emptyVocabMsg) "of the".toList) ≠
      renderResult .noConfidentMatch :=
  C4_empty_vocabulary "the of and".toList "of the".toList (by decide) (by decide)

/-- C4 counterexample: at a concrete stop-word-only document and
question, the empty-vocabulary outcome is the compute-error result,
not the no-confident-match result, and its surfaced message differs
from the "couldn't find a confident answer" message — refuting
"treated identically to NoConfidentMatch at the result level". -/
theorem C4_counterexample :
    askQuestion "the of and".toList (fun _ _ => .error emptyVocabMsg) "of the".toList =
      .computeError ("Could not compute answer: ".toList ++ emptyVocabMsg) ∧
    AnswerResult.computeError ("Could not compute answer: ".toList ++ emptyVocabMsg) ≠
      AnswerResult.noConfidentMatch ∧
    renderResult (.computeError ("Could not compute answer: ".toList ++ emptyVocabMsg)) ≠
      renderResult .noConfidentMatch := by
  refine ⟨?_, by simp, by decide⟩
  simp only [askQuestion]
  rw [if_neg (by decide), if_neg (by decide)]

/-- C7: the synthesized answer contains no duplicate unit text — the
loop walks the ranked pairs in order and a text equal (as an exact,
case-sensitive string) to an already accepted one, or empty after
trimming, is skipped; every other above-threshold text is accepted.
So a text appears in the matched list iff it is the non-empty trimmed
text of some above-threshold ranked pair, and then exactly once. -/
theorem C7_deduplication (sentences : List (List Char)) (pairs : List (Nat × ℚ)) :
    (buildMatched sentences pairs []).Nodup ∧
    ∀ t : List Char, t ∈ buildMatched sentences pairs [] ↔
      (t ≠ [] ∧ ∃ p ∈ pairs, ¬ p.2 < scoreThreshold ∧
        pstrip (sentences.getD p.1 []) = t) := by
  refine ⟨(buildMatched_nodup sentences pairs []).1, fun t => ?_⟩
  rw [mem_buildMatched]
  simp

/-! ## Vector space lemmas -/

theorem dotQ_nil_right : ∀ u : List ℚ, dotQ u [] = 0
  | [] => rfl
  | _ :: _ => rfl

theorem dotQ_nonneg :
    ∀ u v : List ℚ, (∀ x ∈ u, 0 ≤ x) → (∀ x ∈ v, 0 ≤ x) → 0 ≤ dotQ u v := by
  intro u
  induction u with
  | nil => intro v _ _; simp [dotQ]
  | cons a u ih =>
    intro v hu hv
    cases v with
    | nil => rw [dotQ_nil_right]
    | cons b v =>
      simp only [dotQ]
      have h1 : 0 ≤ a * b :=
        mul_nonneg (hu a (List.mem_cons_self a u)) (hv b (List.mem_cons_self b v))
      have h2 := ih v (fun x hx => hu x (List.mem_cons_of_mem _ hx))
        (fun x hx => hv x (List.mem_cons_of_mem _ hx))
      linarith

theorem normSqQ_nonneg : ∀ u : List ℚ, 0 ≤ normSqQ u := by
  intro u
  induction u with
  | nil => simp [normSqQ, dotQ]
  | cons a u ih =>
    simp only [normSqQ, dotQ] at *
    nlinarith [mul_self_nonneg a]

theorem cs_step (a b d p q : ℚ) (hd : d ^ 2 ≤ p * q) (hp : 0 ≤ p) (hq : 0 ≤ q) :
    (a * b + d) ^ 2 ≤ (a * a + p) * (b * b + q) := by
  have h3 : 0 ≤ a ^ 2 * q + b ^ 2 * p := by positivity
  have h2 : (2 * (a * b) * d) ^ 2 ≤ (a ^ 2 * q + b ^ 2 * p) ^ 2 := by
    nlinarith [sq_nonneg (a ^ 2 * q - b ^ 2 * p), sq_nonneg (a * b), mul_nonneg hp hq]
  have h4 : 2 * (a * b) * d ≤ a ^ 2 * q + b ^ 2 * p := by nlinarith [h2, h3]
  nlinarith [h4, hd]

theorem dotQ_sq_le : ∀ u v : List ℚ, dotQ u v ^ 2 ≤ normSqQ u * normSqQ v := by
  intro u
  induction u with
  | nil => intro v; simp [dotQ, normSqQ]
  | cons a u ih =>
    intro v
    cases v with
    | nil =>
      rw [dotQ_nil_right]
      simp only [normSqQ, dotQ_nil_right]
      norm_num
    | cons b v =>
      have h := ih v
      have hp := normSqQ_nonneg u
      have hq := normSqQ_nonneg v
      show (a * b + dotQ u v) ^ 2 ≤ (a * a + dotQ u u) * (b * b + dotQ v v)
      exact cs_step a b (dotQ u v) (dotQ u u) (dotQ v v) h hp hq

theorem cosSim_nonneg {u v : List ℚ} (hu : ∀ x ∈ u, 0 ≤ x) (hv : ∀ x ∈ v, 0 ≤ x) :
    0 ≤ cosSim u v := by
  unfold cosSim
  split_ifs with h
  · exact le_refl 0
  · apply div_nonneg
    · exact_mod_cast dotQ_nonneg u v hu hv
    · positivity

theorem cosSim_le_one {u v : List ℚ} (hu : ∀ x ∈ u, 0 ≤ x) (hv : ∀ x ∈ v, 0 ≤ x) :
    cosSim u v ≤ 1 := by
  unfold cosSim
  split_ifs with h
  · norm_num
  · push_neg at h
    obtain ⟨hu0, hv0⟩ := h
    have hus : (0:ℝ) ≤ (normSqQ u : ℝ) := by exact_mod_cast normSqQ_nonneg u
    have hvs : (0:ℝ) ≤ (normSqQ v : ℝ) := by exact_mod_cast normSqQ_nonneg v
    have hup : (0:ℝ) < (normSqQ u : ℝ) := by
      rcases hus.lt_or_eq with h1 | h1
      · exact h1
      · exact absurd (by exact_mod_cast h1.symm) hu0
    have hvp : (0:ℝ) < (normSqQ v : ℝ) := by
      rcases hvs.lt_or_eq with h1 | h1
      · exact h1
      · exact absurd (by exact_mod_cast h1.symm) hv0
    rw [div_le_one (by positivity)]
    rw [← Real.sqrt_mul hus]
    rw [Real.le_sqrt (by exact_mod_cast dotQ_nonneg u v hu hv) (by positivity)]
    exact_mod_cast dotQ_sq_le u v

theorem cosSim_self {v : List ℚ} (h : normSqQ v ≠ 0) : cosSim v v = 1 := by
  unfold cosSim
  rw [if_neg (by tauto)]
  have h1 : dotQ v v = normSqQ v := rfl
  rw [h1, Real.mul_self_sqrt (by exact_mod_cast normSqQ_nonneg v)]
  exact div_self (by exact_mod_cast h)

theorem cosSim_eq_zero_of_dot_eq_zero {u v : List ℚ} (h : dotQ u v = 0) :
    cosSim u v = 0 := by
  unfold cosSim
  split_ifs with h1
  · rfl
  · rw [h]
    norm_num

theorem dotQ_map_mul (f g : List Char → ℚ) :
    ∀ vocab : List (List Char),
      dotQ (vocab.map f) (vocab.map g) = (vocab.map fun t => f t * g t).sum := by
  intro vocab
  induction vocab with
  | nil => rfl
  | cons t r ih => simp [dotQ, ih]

theorem tfidfVec_nonneg (idf : List Char → ℚ) (hidf : ∀ t, 0 ≤ idf t)
    (vocab tokens : List (List Char)) :
    ∀ x ∈ tfidfVec idf vocab tokens, 0 ≤ x := by
  intro x hx
  unfold tfidfVec at hx
  obtain ⟨t, _, rfl⟩ := List.mem_map.1 hx
  exact mul_nonneg (by positivity) (hidf t)

theorem tfidf_disjoint_dot (idf : List Char → ℚ) (vocab wt qt : List (List Char))
    (h : ∀ t ∈ vocab, t ∉ wt ∨ t ∉ qt) :
    dotQ (tfidfVec idf vocab wt) (tfidfVec idf vocab qt) = 0 := by
  unfold tfidfVec
  rw [dotQ_map_mul]
  apply List.sum_eq_zero
  intro x hx
  obtain ⟨t, ht, rfl⟩ := List.mem_map.1 hx
  rcases h t ht with h1 | h1 <;>
    simp [List.count_eq_zero.2 h1]

/-- C8 (spec-modelled): over TF-IDF vectors with a shared non-negative
idf weighting, every cosine similarity score lies in [0, 1]; a unit
whose (lower-cased) tokens are identical to the query's scores the
maximum achievable value 1 for that vocabulary (given the query vector
has non-zero norm), and a unit sharing no vocabulary term with the
query scores 0, strictly less. -/
theorem C8_similarity_bounds (idf : List Char → ℚ) (vocab ut qt : List (List Char))
    (hidf : ∀ t, 0 ≤ idf t)
    (hq : normSqQ (tfidfVec idf vocab qt) ≠ 0)
    (hdisj : ∀ t ∈ vocab, t ∉ ut ∨ t ∉ qt) :
    (∀ dt : List (List Char),
      0 ≤ cosSim (tfidfVec idf vocab dt) (tfidfVec idf vocab qt) ∧
      cosSim (tfidfVec idf vocab dt) (tfidfVec idf vocab qt) ≤ 1) ∧
    cosSim (tfidfVec idf vocab qt) (tfidfVec idf vocab qt) = 1 ∧
    cosSim (tfidfVec idf vocab ut) (tfidfVec idf vocab qt) = 0 ∧
    cosSim (tfidfVec idf vocab ut) (tfidfVec idf vocab qt) <
      cosSim (tfidfVec idf vocab qt) (tfidfVec idf vocab qt) := by
  have hqn := tfidfVec_nonneg idf hidf vocab qt
  have hself := cosSim_self hq
  have hzero := cosSim_eq_zero_of_dot_eq_zero
    (tfidf_disjoint_dot idf vocab ut qt hdisj)
  refine ⟨?_, hself, hzero, ?_⟩
  · intro dt
    exact ⟨cosSim_nonneg (tfidfVec_nonneg idf hidf vocab dt) hqn,
      cosSim_le_one (tfidfVec_nonneg idf hidf vocab dt) hqn⟩
  · rw [hself, hzero]
    norm_num

/-- Witness for `C8_similarity_bounds` on the two-term vocabulary
`{"s", "b"}` with unit idf weights, query `["s"]` and unrelated unit
`["b"]`. -/
theorem C8_similarity_bounds_witness :
    (∀ dt : List (List Char),
      0 ≤ cosSim (tfidfVec (fun _ => 1) [['s'], ['b']] dt)
            (tfidfVec (fun _ => 1) [['s'], ['b']] [['s']]) ∧
      cosSim (tfidfVec (fun _ => 1) [['s'], ['b']] dt)
            (tfidfVec (fun _ => 1) [['s'], ['b']] [['s']]) ≤ 1) ∧
    cosSim (tfidfVec (fun _ => 1) [['s'], ['b']] [['s']])
        (tfidfVec (fun _ => 1) [['s'], ['b']] [['s']]) = 1 ∧
    cosSim (tfidfVec (fun _ => 1) [['s'], ['b']] [['b']])
        (tfidfVec (fun _ => 1) [['s'], ['b']] [['s']]) = 0 ∧
    cosSim (tfidfVec (fun _ => 1) [['s'], ['b']] [['b']])
        (tfidfVec (fun _ => 1) [['s'], ['b']] [['s']]) <
      cosSim (tfidfVec (fun _ => 1) [['s'], ['b']] [['s']])
        (tfidfVec (fun _ => 1) [['s'], ['b']] [['s']]) := by
  refine C8_similarity_bounds (fun _ => 1) [['s'], ['b']] [['b']] [['s']]
    (fun t => by norm_num) ?_ (by decide)
  norm_num [tfidfVec, normSqQ, dotQ, List.count_cons, List.count_nil,
    show ('s' = 'b') = False from by simp]
